import Mathlib

/-!
Shallow embedding of the Q-TDFP quantum entropy engine
(src/src/lib/quantumEntropy.ts) and verification of its specification.

Modelling conventions:
* JavaScript 64-bit floats are modelled as exact rationals; every numeric
  coercion the code performs (`| 0`, `>>>`, `& 0xFF`, writes into a
  `Uint8Array`) is modelled explicitly below.
* `Uint8Array` values are lists of naturals; out-of-range reads, which in
  JavaScript produce `undefined` and are then coerced to 0 by the bitwise
  operators that consume them, are modelled with `List.getD _ _ 0`.
* Strings produced by the code (fingerprints, digests) are lists of
  characters; password strings are lists of UTF-16 code units (naturals).
-/

namespace QTDFP

/-- ToUint32 of a mathematical integer: reduce modulo two to the thirty-two. -/
def toUint32 (n : Int) : Nat := (n % (2 ^ 32 : Int)).toNat

/-- ToInt32 of a mathematical integer: reduce modulo two to the thirty-two
into the signed range. -/
def toSigned32 (n : Int) : Int :=
  if n % (2 ^ 32 : Int) < 2 ^ 31 then n % (2 ^ 32 : Int)
  else n % (2 ^ 32 : Int) - 2 ^ 32

/-- Truncation of a rational toward zero, as JavaScript ToInt32 starts with. -/
def ratTrunc (q : ℚ) : Int := if 0 ≤ q then ⌊q⌋ else -⌊-q⌋

/-- The JavaScript coercion applied by the bitwise-or-zero idiom on a float:
truncate toward zero, then wrap into the signed 32-bit range. -/
def jsToInt32 (q : ℚ) : Int := toSigned32 (ratTrunc q)

/-- Storing an integer into a Uint8Array slot: reduce modulo 256. -/
def jsToUint8 (n : Int) : Nat := (n % (256 : Int)).toNat

/-- The 32-bit xor operator of JavaScript on integers. -/
def jsXor32 (a b : Int) : Int := toSigned32 ((toUint32 a) ^^^ (toUint32 b) : Nat)

/-- The 32-bit or operator of JavaScript on integers. -/
def jsOr32 (a b : Int) : Int := toSigned32 ((toUint32 a) ||| (toUint32 b) : Nat)

/-- The 32-bit and operator of JavaScript on integers. -/
def jsAnd32 (a b : Int) : Int := toSigned32 ((toUint32 a) &&& (toUint32 b) : Nat)

/-- The 32-bit left shift of JavaScript on integers. -/
def jsShl32 (a : Int) (k : Nat) : Int := toSigned32 ((toUint32 a) <<< k : Nat)

/-- The unsigned right shift of JavaScript on integers: operate on the
unsigned 32-bit representative, zero-filling. -/
def jsShrU (a : Int) (k : Nat) : Int := ((toUint32 a) >>> k : Nat)

/-- Logistic map chaos function, source line 15:
x maps to r times x times one minus x, with r = 3.99. -/
def logisticMap (x : ℚ) : ℚ := 399 / 100 * x * (1 - x)

/-- Tent map chaos function, source line 20, with mu = 1.99. -/
def tentMap (x : ℚ) : ℚ :=
  if x < 1 / 2 then 199 / 100 * x else 199 / 100 * (1 - x)

/-- One step of the seed hash loop, source lines 29 and 30:
hash becomes hash shifted left five minus hash plus the character code,
wrapped by the or-zero, then xored with its own unsigned right shift by 16. -/
def seedStep (h : Int) (c : Nat) : Int :=
  let h1 := toSigned32 (jsShl32 h 5 - h + c)
  jsXor32 h1 (jsShrU h1 16)

/-- Generate entropy seed from password, source lines 25 to 35:
fold the rolling hash over the character codes, then clamp the absolute
value divided by 2147483647 into the interval from 0.0001 to 0.9999. -/
def generateEntropySeed (password : List Nat) : ℚ :=
  let hash := password.foldl seedStep 0
  max (1 / 10000) (min (9999 / 10000) ((hash.natAbs : ℚ) / 2147483647))

/-- One simultaneous update of both chaotic maps, source lines 43 to 45
and 48 to 50. -/
def chaosStep (p : ℚ × ℚ) : ℚ × ℚ := (logisticMap p.1, tentMap p.2)

/-- The emission loop of the entropy stream, source lines 48 to 53: update
both maps, then yield the combined value coerced by the or-zero idiom. -/
def emitAux (x y : ℚ) : Nat → List Int
  | 0 => []
  | n + 1 =>
    jsToInt32 ((logisticMap x + tentMap y) / 2 * 256)
      :: emitAux (logisticMap x) (tentMap y) n

/-- Generate chaotic entropy stream, source lines 38 to 54: initialize
x with the seed and y with the tent map of the seed, run one hundred
burn-in updates of both maps, then emit the requested number of values. -/
def entropyStream (seed : ℚ) (iterations : Nat) : List Int :=
  let p := chaosStep^[100] (seed, tentMap seed)
  emitAux p.1 p.2 iterations

/-- The literal encoding of one raw byte, source lines 123 to 130: the
marker byte 0xFE is escaped as a run of length one, anything else is kept. -/
def litOf (b : Nat) : List Nat := if b = 254 then [254, 1, b] else [b]

/-- Length of the run of copies of the first argument at the head of the
list, capped by the third argument; this mirrors the scanning loop of
source lines 111 to 116, whose run length never exceeds 255 because the
counter starts at one and the guard requires it below 255. -/
def countRun (v : Nat) : List Nat → Nat → Nat
  | [], _ => 0
  | _ :: _, 0 => 0
  | a :: l, cap + 1 => if a = v then countRun v l cap + 1 else 0

/-- Compress data using run-length encoding, source lines 106 to 136:
runs of length at least three become the token 0xFE, length, value;
shorter runs are emitted literally with the marker byte escaped. -/
def quantumCompress : List Nat → List Nat
  | [] => []
  | v :: rest =>
    let r := countRun v rest 254
    if 3 ≤ r + 1 then
      254 :: (r + 1) :: v :: quantumCompress (rest.drop r)
    else
      ((v :: rest.take r).map litOf).flatten ++ quantumCompress (rest.drop r)
termination_by l => l.length
decreasing_by
  all_goals simp [List.length_drop]; omega

/-- Decompress run-length encoded data, source lines 139 to 158: a 0xFE
byte followed by at least two more bytes is a run token; anything else,
including a trailing truncated token, is copied literally. -/
def quantumDecompress : List Nat → List Nat
  | [] => []
  | [a] => [a]
  | [a, b] => [a, b]
  | a :: b :: c :: rest =>
    if a = 254 then List.replicate b c ++ quantumDecompress rest
    else a :: quantumDecompress (b :: c :: rest)

/-- The signed 32-bit value determined by an unsigned representative. -/
def signedOfUint (u : Nat) : Int :=
  if u < 2 ^ 31 then (u : Int) else (u : Int) - 2 ^ 32

/-- SeedDerivation step as the specification words it, on the unsigned
32-bit representative, with the zero-filling right shift the code performs:
the hash is shifted left by five, decremented by itself, incremented by the
character code, wrapped modulo two to the thirty-two, and xored with its
own unsigned right shift by sixteen. -/
def seedStepSpec (u : Nat) (c : Nat) : Nat :=
  let u1 := ((u <<< 5) - u + c) % 2 ^ 32
  u1 ^^^ (u1 >>> 16)

/-- Absolute value of the signed reading of an unsigned 32-bit value. -/
def absVal32 (u : Nat) : Nat := if u < 2 ^ 31 then u else 2 ^ 32 - u

/-- SeedDerivation as the specification words it, folding the wrap-around
hash and clamping the scaled absolute value. -/
def generateEntropySeedSpec (password : List Nat) : ℚ :=
  let u := password.foldl seedStepSpec 0
  max (1 / 10000) (min (9999 / 10000) ((absVal32 u : ℚ) / 2147483647))

/-- SeedDerivation step as claim C7 words it, with an arithmetic,
sign-extending right shift by sixteen on the signed value in place of the
zero-filling one; floor division by two to the sixteen is exactly that
arithmetic shift. -/
def seedStepArith (h : Int) (c : Nat) : Int :=
  let h1 := toSigned32 (jsShl32 h 5 - h + c)
  jsXor32 h1 (Int.fdiv h1 (2 ^ 16))

/-- SeedDerivation as claim C7 words it, built on the arithmetic shift. -/
def generateEntropySeedArith (password : List Nat) : ℚ :=
  let hash := password.foldl seedStepArith 0
  max (1 / 10000) (min (9999 / 10000) ((hash.natAbs : ℚ) / 2147483647))

/-- One emitted byte as claim C6 words it: the floor of the combined value,
truncating toward zero, masked with 0xFF by the 32-bit and. -/
def chaosByteSpec (q : ℚ) : Int := jsAnd32 ⌊q⌋ 255

/-- The per-step emission loop as claim C6 words it. -/
def emitAuxSpec (x y : ℚ) : Nat → List Int
  | 0 => []
  | n + 1 =>
    chaosByteSpec ((logisticMap x + tentMap y) / 2 * 256)
      :: emitAuxSpec (logisticMap x) (tentMap y) n

/-- ChaosStream as claim C6 words it: x starts at the seed and y at the
tent map of the seed, exactly one hundred burn-in updates of both maps are
performed with no output, then each of the count steps updates both maps
and emits the floored, masked combination. -/
def chaosStreamSpec (seed : ℚ) (count : Nat) : List Int :=
  let p := chaosStep^[100] (seed, tentMap seed)
  emitAuxSpec p.1 p.2 count

/-- Lowercase hexadecimal digits of a natural number, most significant
first, as the JavaScript number-to-string conversion with radix 16 renders
a nonnegative integer. -/
def natToHex (n : Nat) : List Char :=
  if n < 16 then [Nat.digitChar n]
  else natToHex (n / 16) ++ [Nat.digitChar (n % 16)]
termination_by n
decreasing_by
  exact Nat.div_lt_self (by omega) (by norm_num)

/-- JavaScript number-to-string with radix 16 on an integer: a minus sign
precedes the digits of the absolute value when negative. -/
def jsNumToHex (b : Int) : List Char :=
  if b < 0 then '-' :: natToHex b.natAbs else natToHex b.toNat

/-- JavaScript padStart of a character list to length two with the zero
character. -/
def padStart2 (s : List Char) : List Char :=
  List.replicate (2 - s.length) '0' ++ s

/-- Generate entropy fingerprint, source lines 57 to 67: collect 32 stream
bytes, hex-encode each with two lowercase digits padded to width two, and
concatenate in stream order. -/
def generateEntropyFingerprint (password : List Nat) : List Char :=
  ((entropyStream (generateEntropySeed password) 32).map
    (fun b => padStart2 (jsNumToHex b))).flatten

/-- The sixteen lowercase hexadecimal digit characters, as rendered by the
digit-character conversion for values zero through fifteen. -/
def hexDigits : List Char := (List.range 16).map Nat.digitChar

/-- One data-mixing update of the digest buffer, source line 84: the slot
is xored with the data byte and with the scaled logistic image of itself,
each operand coerced to a 32-bit integer, masked with 0xFF and stored. -/
def hashMixByte (h : List Nat) (pos : Nat) (d : Nat) : List Nat :=
  let a := h.getD pos 0
  let t := jsToInt32 (logisticMap ((a : ℚ) / 256) * 256)
  h.set pos (jsToUint8 (jsAnd32 (jsXor32 (jsXor32 (a : Int) (d : Int)) t) 255))

/-- One diffusion pass over the buffer, source lines 87 to 91: each slot
absorbs its right neighbour, sequentially in increasing position, reading
already-updated values. -/
def hashDiffuse (h : List Nat) : List Nat :=
  (List.range 32).foldl
    (fun h j =>
      h.set j (jsToUint8 (jsAnd32 ((h.getD j 0 : Int) + (h.getD ((j + 1) % 32) 0 : Int)) 255)))
    h

/-- The data-absorption loop of the digest, source lines 82 to 92: mix each
indexed byte into its slot and diffuse after every thirty-second byte. -/
def hashAbsorb (h : List Nat) (data : List Nat) : List Nat :=
  (data.foldl
    (fun st d =>
      let h1 := hashMixByte st.1 (st.2 % 32) d
      (if st.2 % 32 = 31 then hashDiffuse h1 else h1, st.2 + 1))
    (h, 0)).1

/-- One position update of one final mixing round, source lines 96 to 99:
xor with the slot thirteen ahead, mask, store, then add the scaled
logistic image of the updated slot, truncate, mask, store. -/
def hashFinalStep (h : List Nat) (j : Nat) : List Nat :=
  let h1 := h.set j
    (jsToUint8 (jsAnd32 (jsXor32 (h.getD j 0 : Int) (h.getD ((j + 13) % 32) 0 : Int)) 255))
  let hj := h1.getD j 0
  h1.set j
    (jsToUint8 (jsAnd32 (jsToInt32 ((hj : ℚ) + logisticMap ((hj : ℚ) / 256) * 128)) 255))

/-- The sixteen final mixing rounds, source lines 95 to 100. -/
def hashFinalRounds (h : List Nat) : List Nat :=
  (List.range 16).foldl (fun h _ => (List.range 32).foldl hashFinalStep h) h

/-- Post-quantum style hash simulation, source lines 70 to 103: initialize
a 32-byte buffer from a fresh entropy stream, absorb the data, run the
final mixing rounds, and hex-encode the buffer. -/
def quantumHash (data : List Nat) (password : List Nat) : List Char :=
  let seed := generateEntropySeed password
  let init := (entropyStream seed 32).map jsToUint8
  let final := hashFinalRounds (hashAbsorb init data)
  (final.map (fun b => padStart2 (jsNumToHex (b : Int)))).flatten

/-- The four header bytes of a length value, most significant byte first,
source lines 174 to 183: the length is taken through the unsigned 32-bit
coercion of the unsigned right shift, then masked with 0xFF. -/
def encodeLen (n : Nat) : List Nat :=
  [((n % 2 ^ 32) >>> 24) &&& 255, ((n % 2 ^ 32) >>> 16) &&& 255,
    ((n % 2 ^ 32) >>> 8) &&& 255, (n % 2 ^ 32) &&& 255]

/-- The result of an encryption call: the container bytes, the fingerprint
and digest strings, and the progress fractions reported to the callback. -/
structure EncryptResult where
  encrypted : List Nat
  fingerprint : List Char
  hash : List Char
  progressCalls : List ℚ
  deriving DecidableEq

/-- Encrypt data, source lines 161 to 204: derive the seed, compute the
fingerprint, compress, prefix the original and compressed lengths as two
big-endian words, xor the compressed bytes with a fresh keystream, and
digest the resulting container. The optional progress callback is modelled
by a flag plus the list of fractions the code would report: the count of
processed bytes over the compressed length at each multiple of 1024. -/
def quantumEncrypt (data : List Nat) (password : List Nat)
    (onProgress : Bool) : EncryptResult :=
  let seed := generateEntropySeed password
  let fingerprint := generateEntropyFingerprint password
  let compressed := quantumCompress data
  let keystream := entropyStream seed compressed.length
  let ciphertext :=
    List.zipWith (fun (c : Nat) (k : Int) => jsToUint8 (jsXor32 (c : Int) k))
      compressed keystream
  let encrypted := encodeLen data.length ++ encodeLen compressed.length ++ ciphertext
  let hash := quantumHash encrypted password
  let progressCalls :=
    if onProgress then
      (List.range compressed.length).filterMap
        (fun i =>
          if (i + 1) % 1024 = 0 then some (((i + 1 : Nat) : ℚ) / compressed.length)
          else none)
    else []
  ⟨encrypted, fingerprint, hash, progressCalls⟩

/-- The signed 32-bit decode of four container bytes, source lines 227 to
230: shifted bytes combined with the 32-bit or; the top byte reaches the
sign bit, so the decoded value is signed. Out-of-range reads yield zero. -/
def decodeLen (container : List Nat) (off : Nat) : Int :=
  jsOr32
    (jsOr32
      (jsOr32 (jsShl32 (container.getD off 0 : Int) 24)
        (jsShl32 (container.getD (off + 1) 0 : Int) 16))
      (jsShl32 (container.getD (off + 2) 0 : Int) 8))
    (container.getD (off + 3) 0 : Int)

/-- Decrypt, source lines 207 to 258: verify the fingerprint, verify the
digest, parse the two length words, regenerate the keystream, xor it
against the ciphertext, decompress, and check the decompressed length;
every failure returns none, matching the null returns of the code. A
negative parsed compressed length would make the construction of the
output buffer throw a range error in JavaScript; that exit is likewise
modelled as none. The progress callback does not influence the returned
value and is not modelled here. -/
def quantumDecrypt (encrypted : List Nat) (password : List Nat)
    (expectedFingerprint : List Char) (expectedHash : List Char) :
    Option (List Nat) :=
  if generateEntropyFingerprint password = expectedFingerprint then
    if quantumHash encrypted password = expectedHash then
      let originalLength := decodeLen encrypted 0
      let compressedLength := decodeLen encrypted 4
      if compressedLength < 0 then none
      else
        let seed := generateEntropySeed password
        let keystream := entropyStream seed compressedLength.toNat
        let compressed := List.zipWith
          (fun (i : Nat) (k : Int) => jsToUint8 (jsXor32 ((encrypted.getD (i + 8) 0 : Nat) : Int) k))
          (List.range compressedLength.toNat) keystream
        let decompressed := quantumDecompress compressed
        if (decompressed.length : Int) = originalLength then some decompressed
        else none
    else none
  else none

theorem countRun_le_cap (v : Nat) : ∀ (l : List Nat) (cap : Nat), countRun v l cap ≤ cap
  | [], _ => by simp [countRun]
  | _ :: _, 0 => by simp [countRun]
  | a :: l, cap + 1 => by
    simp only [countRun]
    split
    · exact Nat.succ_le_succ (countRun_le_cap v l cap)
    · exact Nat.zero_le _

theorem countRun_le_length (v : Nat) :
    ∀ (l : List Nat) (cap : Nat), countRun v l cap ≤ l.length
  | [], _ => by simp [countRun]
  | _ :: _, 0 => by simp [countRun]
  | a :: l, cap + 1 => by
    simp only [countRun, List.length_cons]
    split
    · exact Nat.succ_le_succ (countRun_le_length v l cap)
    · exact Nat.zero_le _

theorem countRun_take (v : Nat) :
    ∀ (l : List Nat) (cap : Nat),
      l.take (countRun v l cap) = List.replicate (countRun v l cap) v
  | [], _ => by simp [countRun]
  | _ :: _, 0 => by simp [countRun]
  | a :: l, cap + 1 => by
    simp only [countRun]
    split
    · next h =>
      simp [List.take_succ_cons, List.replicate_succ, h, countRun_take v l cap]
    · simp

theorem decompress_cons_ne {a : Nat} (h : a ≠ 254) :
    ∀ l : List Nat, quantumDecompress (a :: l) = a :: quantumDecompress l
  | [] => by simp [quantumDecompress]
  | [b] => by simp [quantumDecompress]
  | b :: c :: rest => by simp [quantumDecompress, h]

theorem decompress_token (n v : Nat) (l : List Nat) :
    quantumDecompress (254 :: n :: v :: l) =
      List.replicate n v ++ quantumDecompress l := by
  simp [quantumDecompress]

/-- Core round-trip induction: decompressing a compressed list restores it,
by strong induction on the length bound. -/
theorem roundtrip_aux : ∀ (n : Nat) (l : List Nat), l.length ≤ n →
    quantumDecompress (quantumCompress l) = l := by
  intro n
  induction n with
  | zero =>
    intro l hl
    have : l = [] := List.eq_nil_of_length_eq_zero (Nat.le_zero.mp hl)
    subst this
    simp [quantumCompress, quantumDecompress]
  | succ n ih =>
    intro l hl
    match l with
    | [] => simp [quantumCompress, quantumDecompress]
    | v :: rest =>
      have hrest : rest.length ≤ n := by
        simpa using Nat.succ_le_succ_iff.mp hl
      have hdroplen : (rest.drop (countRun v rest 254)).length ≤ n := by
        simp only [List.length_drop]
        omega
      have htake := countRun_take v rest 254
      have hrlen : countRun v rest 254 ≤ rest.length :=
        countRun_le_length v rest 254
      rw [quantumCompress]
      set r := countRun v rest 254 with hr
      split
      · next h3 =>
        rw [decompress_token, ih _ hdroplen]
        have : List.replicate (r + 1) v = v :: rest.take r := by
          rw [htake, List.replicate_succ]
        rw [this]
        simp [List.take_append_drop]
      · next h3 =>
        have hr2 : r = 0 ∨ r = 1 := by omega
        rcases hr2 with h0 | h1
        · rw [h0] at htake hdroplen ⊢
          simp only [List.take_zero, List.drop_zero, List.map_cons, List.map_nil,
            List.flatten_cons, List.flatten_nil, List.append_nil]
          by_cases hv : v = 254
          · subst hv
            simp only [litOf, if_true]
            simp only [List.cons_append, List.nil_append]
            rw [decompress_token, ih _ hrest]
            simp
          · simp only [litOf]
            rw [if_neg hv]
            simp only [List.cons_append, List.nil_append]
            rw [decompress_cons_ne hv, ih _ hrest]
        · rw [h1] at htake hdroplen ⊢
          have hsplit : rest = v :: rest.drop 1 := by
            conv_lhs => rw [← List.take_append_drop 1 rest]
            rw [htake]
            simp
          simp only [htake, List.map_cons, List.map_nil, List.flatten_cons,
            List.flatten_nil, List.append_nil, List.replicate_one]
          by_cases hv : v = 254
          · subst hv
            simp only [litOf, if_true]
            simp only [List.cons_append, List.nil_append, List.append_assoc]
            rw [decompress_token, decompress_token, ih _ hdroplen]
            simp only [List.replicate_one, List.cons_append, List.nil_append,
              List.singleton_append]
            exact congrArg (254 :: ·) hsplit.symm
          · simp only [litOf]
            rw [if_neg hv]
            simp only [List.cons_append, List.nil_append, List.append_assoc,
              List.singleton_append]
            rw [decompress_cons_ne hv, decompress_cons_ne hv, ih _ hdroplen]
            exact congrArg (v :: ·) hsplit.symm

theorem litOf_length_le (b : Nat) : (litOf b).length ≤ 3 := by
  unfold litOf
  split <;> simp

/-- Compression never more than triples the length, by strong induction. -/
theorem compress_length_aux : ∀ (n : Nat) (l : List Nat), l.length ≤ n →
    (quantumCompress l).length ≤ 3 * l.length := by
  intro n
  induction n with
  | zero =>
    intro l hl
    have : l = [] := List.eq_nil_of_length_eq_zero (Nat.le_zero.mp hl)
    subst this
    simp [quantumCompress]
  | succ n ih =>
    intro l hl
    match l with
    | [] => simp [quantumCompress]
    | v :: rest =>
      have hrlen : countRun v rest 254 ≤ rest.length :=
        countRun_le_length v rest 254
      have hdroplen : (rest.drop (countRun v rest 254)).length ≤ n := by
        simp only [List.length_drop]
        simp only [List.length_cons] at hl
        omega
      have hdrop := ih _ hdroplen
      rw [quantumCompress]
      set r := countRun v rest 254 with hr
      split
      · simp only [List.length_cons, List.length_drop] at hdrop ⊢
        omega
      · have hlit : (((v :: rest.take r).map litOf).flatten).length ≤ 3 * (r + 1) := by
          rw [List.length_flatten]
          have : ∀ m (t : List Nat), t.length = m →
              ((t.map litOf).map List.length).sum ≤ 3 * m := by
            intro m
            induction m with
            | zero =>
              intro t ht
              have : t = [] := List.eq_nil_of_length_eq_zero ht
              subst this
              simp
            | succ m ihm =>
              intro t ht
              match t with
              | [] => simp at ht
              | b :: t' =>
                simp only [List.length_cons] at ht
                simp only [List.map_cons, List.sum_cons]
                have h1 := litOf_length_le b
                have h2 := ihm t' (by omega)
                omega
          have hlen : (v :: rest.take r).length = r + 1 := by
            simp only [List.length_cons, List.length_take]
            omega
          exact this (r + 1) _ hlen
        calc ((((v :: rest.take r).map litOf).flatten) ++
                quantumCompress (rest.drop r)).length
            = (((v :: rest.take r).map litOf).flatten).length +
                (quantumCompress (rest.drop r)).length := by
              simp
              omega
          _ ≤ 3 * (r + 1) + 3 * (rest.drop r).length := by omega
          _ ≤ 3 * (v :: rest).length := by
              simp only [List.length_drop, List.length_cons]
              omega

/-- Members of the compressed stream are bytes whenever the input consists
of bytes: tokens contribute the marker, a capped run length and an input
value, literals contribute input values and escape tokens. -/
theorem compress_bytes_aux : ∀ (n : Nat) (l : List Nat), l.length ≤ n →
    (∀ b ∈ l, b < 256) → ∀ b ∈ quantumCompress l, b < 256 := by
  intro n
  induction n with
  | zero =>
    intro l hl _
    have : l = [] := List.eq_nil_of_length_eq_zero (Nat.le_zero.mp hl)
    subst this
    simp [quantumCompress]
  | succ n ih =>
    intro l hl hbytes
    match l with
    | [] => simp [quantumCompress]
    | v :: rest =>
      have hv : v < 256 := hbytes v (by simp)
      have hrest : ∀ b ∈ rest, b < 256 := fun b hb => hbytes b (by simp [hb])
      have hdropbytes : ∀ b ∈ rest.drop (countRun v rest 254), b < 256 :=
        fun b hb => hrest b (List.mem_of_mem_drop hb)
      have hdroplen : (rest.drop (countRun v rest 254)).length ≤ n := by
        simp only [List.length_drop]
        simp only [List.length_cons] at hl
        omega
      have hcap : countRun v rest 254 ≤ 254 := countRun_le_cap v rest 254
      rw [quantumCompress]
      set r := countRun v rest 254 with hr
      split
      · intro b hb
        simp only [List.mem_cons] at hb
        rcases hb with h | h | h | h
        · omega
        · omega
        · omega
        · exact ih _ hdroplen hdropbytes b h
      · intro b hb
        simp only [List.mem_append] at hb
        rcases hb with h | h
        · rw [List.mem_flatten] at h
          obtain ⟨t, ht, hbt⟩ := h
          rw [List.mem_map] at ht
          obtain ⟨c, hc, rfl⟩ := ht
          have hc256 : c < 256 := by
            simp only [List.mem_cons] at hc
            rcases hc with rfl | hc
            · exact hv
            · exact hrest c (List.mem_of_mem_take hc)
          unfold litOf at hbt
          split at hbt <;> simp only [List.mem_cons] at hbt <;>
            rcases hbt with rfl | hbt <;> first | omega | (try rcases hbt with rfl | hbt) <;>
            first | omega | (try rcases hbt with rfl | hbt) <;> first | omega | simp_all
        · exact ih _ hdroplen hdropbytes b h

theorem countRun_replicate (v : Nat) :
    ∀ (m cap : Nat), countRun v (List.replicate m v) cap = min m cap
  | 0, _ => by simp [countRun]
  | m + 1, 0 => by simp [List.replicate_succ, countRun]
  | m + 1, cap + 1 => by
    simp [List.replicate_succ, countRun, countRun_replicate v m cap]
    omega

/-- Length of the compression of a constant run of zeros: at most three
bytes for every started block of 255, by strong induction. -/
theorem compress_replicate_zero_len : ∀ (fuel n : Nat), n ≤ fuel →
    (quantumCompress (List.replicate n 0)).length ≤ 3 * ((n + 254) / 255) := by
  intro fuel
  induction fuel with
  | zero =>
    intro n hn
    have : n = 0 := Nat.le_zero.mp hn
    subst this
    simp [quantumCompress]
  | succ fuel ih =>
    intro n hn
    match n with
    | 0 => simp [quantumCompress]
    | m + 1 =>
      rw [List.replicate_succ, quantumCompress]
      rw [countRun_replicate]
      set r := min m 254 with hr
      have hdrop : List.drop r (List.replicate m 0) = List.replicate (m - r) 0 :=
        List.drop_replicate 0 r m
      split
      · next h3 =>
        rw [hdrop]
        have hrec := ih (m - r) (by omega)
        simp only [List.length_cons]
        omega
      · next h3 =>
        have hm : m = r := by omega
        have hmr : m - r = 0 := by omega
        have htk : List.take r (List.replicate m 0) = List.replicate r 0 := by
          rw [List.take_replicate]
          congr 1
          omega
        rw [hdrop, htk, hmr]
        have hr01 : r = 0 ∨ r = 1 := by omega
        rcases hr01 with h | h <;> rw [h] <;>
          simp [quantumCompress, litOf] <;> omega

theorem toSigned32_mod (n : Int) : toSigned32 n % 2 ^ 32 = n % 2 ^ 32 := by
  unfold toSigned32
  split <;> omega

theorem toUint32_toSigned32 (n : Int) : toUint32 (toSigned32 n) = toUint32 n := by
  unfold toUint32 toSigned32
  split <;> omega

theorem toUint32_natCast (m : Nat) (h : m < 2 ^ 32) : toUint32 (m : Int) = m := by
  unfold toUint32
  omega

theorem toUint32_lt (n : Int) : toUint32 n < 2 ^ 32 := by
  unfold toUint32
  omega

theorem toSigned32_eq_signedOfUint (n : Int) :
    toSigned32 n = signedOfUint (toUint32 n) := by
  unfold toSigned32 signedOfUint toUint32
  split <;> split <;> omega

theorem jsXor32_normal (a b : Int) :
    jsXor32 a b = signedOfUint (toUint32 (jsXor32 a b)) := by
  unfold jsXor32
  rw [toUint32_toSigned32, toSigned32_eq_signedOfUint]

theorem seedStep_normal (h : Int) (c : Nat) :
    seedStep h c = signedOfUint (toUint32 (seedStep h c)) := by
  unfold seedStep
  exact jsXor32_normal _ _

/-- The unsigned representative of one code step agrees with one
specification step on the previous unsigned representative. -/
theorem seedStep_spec (h : Int) (c : Nat) :
    toUint32 (seedStep h c) = seedStepSpec (toUint32 h) c := by
  simp only [seedStep, seedStepSpec]
  have hshift : ∀ m : Nat, m <<< 5 = m * 32 := fun m => by
    rw [Nat.shiftLeft_eq]
  have hshiftr : ∀ m : Nat, m >>> 16 = m / 2 ^ 16 := fun m =>
    Nat.shiftRight_eq_div_pow m 16
  have h1eq : toUint32 (toSigned32 (jsShl32 h 5 - h + c)) =
      ((toUint32 h <<< 5) - toUint32 h + c) % 2 ^ 32 := by
    rw [toUint32_toSigned32]
    have e1 : jsShl32 h 5 % 2 ^ 32 = ((toUint32 h <<< 5 : Nat) : Int) % 2 ^ 32 := by
      unfold jsShl32
      exact toSigned32_mod _
    rw [hshift] at e1 ⊢
    unfold toUint32 at *
    omega
  set H1 := toSigned32 (jsShl32 h 5 - h + c) with hH1
  unfold jsXor32 jsShrU
  rw [toUint32_toSigned32]
  have hsh : toUint32 H1 >>> 16 < 2 ^ 32 := by
    rw [hshiftr]
    have := toUint32_lt H1
    omega
  rw [toUint32_natCast _ hsh]
  have hxorlt : toUint32 H1 ^^^ (toUint32 H1 >>> 16) < 2 ^ 32 :=
    Nat.xor_lt_two_pow (toUint32_lt H1) hsh
  rw [toUint32_natCast _ hxorlt, h1eq]

theorem foldl_seedStep_spec (p : List Nat) :
    ∀ h : Int, toUint32 (p.foldl seedStep h) = p.foldl seedStepSpec (toUint32 h) := by
  induction p with
  | nil => intro h; rfl
  | cons c p ih =>
    intro h
    simp only [List.foldl_cons]
    rw [ih, seedStep_spec]

theorem foldl_seedStep_normal (p : List Nat) :
    ∀ h : Int, h = signedOfUint (toUint32 h) →
      p.foldl seedStep h = signedOfUint (p.foldl seedStepSpec (toUint32 h)) := by
  induction p with
  | nil => intro h hh; simpa using hh
  | cons c p ih =>
    intro h hh
    simp only [List.foldl_cons]
    rw [ih (seedStep h c) (seedStep_normal h c), seedStep_spec]

theorem natAbs_signedOfUint (u : Nat) (h : u < 2 ^ 32) :
    (signedOfUint u).natAbs = absVal32 u := by
  unfold signedOfUint absVal32
  split <;> omega

theorem seedStepSpec_lt (u c : Nat) : seedStepSpec u c < 2 ^ 32 := by
  simp only [seedStepSpec]
  exact Nat.xor_lt_two_pow (Nat.mod_lt _ (by norm_num))
    (by
      have : (((u <<< 5) - u + c) % 2 ^ 32) < 2 ^ 32 := Nat.mod_lt _ (by norm_num)
      rw [Nat.shiftRight_eq_div_pow]
      omega)

theorem foldl_seedStepSpec_lt (p : List Nat) :
    ∀ u : Nat, u < 2 ^ 32 → p.foldl seedStepSpec u < 2 ^ 32 := by
  induction p with
  | nil => intro u hu; simpa using hu
  | cons c p ih =>
    intro u hu
    simp only [List.foldl_cons]
    exact ih _ (seedStepSpec_lt u c)

/-- The code's seed derivation agrees with the specification's wording,
with the zero-filling shift. -/
theorem generateEntropySeed_eq_spec (p : List Nat) :
    generateEntropySeed p = generateEntropySeedSpec p := by
  simp only [generateEntropySeed, generateEntropySeedSpec]
  have h0 : (0 : Int) = signedOfUint (toUint32 0) := by
    unfold signedOfUint toUint32
    norm_num
  rw [foldl_seedStep_normal p 0 h0]
  have hu0 : toUint32 0 = 0 := by unfold toUint32; norm_num
  rw [hu0, natAbs_signedOfUint _ (foldl_seedStepSpec_lt p 0 (by norm_num))]

theorem generateEntropySeed_ge (p : List Nat) :
    1 / 10000 ≤ generateEntropySeed p :=
  le_max_left _ _

theorem generateEntropySeed_le (p : List Nat) :
    generateEntropySeed p ≤ 9999 / 10000 := by
  simp only [generateEntropySeed]
  exact max_le (by norm_num) (min_le_left _ _)

theorem generateEntropySeed_ne_half (p : List Nat) :
    generateEntropySeed p ≠ 1 / 2 := by
  simp only [generateEntropySeed]
  intro hcontra
  rcases max_choice (1 / 10000 : ℚ)
      (min (9999 / 10000) (((List.foldl seedStep 0 p).natAbs : ℚ) / 2147483647))
    with hmax | hmax
  · rw [hmax] at hcontra
    norm_num at hcontra
  · rw [hmax] at hcontra
    rcases min_choice ((9999 : ℚ) / 10000)
        (((List.foldl seedStep 0 p).natAbs : ℚ) / 2147483647) with hmin | hmin
    · rw [hmin] at hcontra
      norm_num at hcontra
    · rw [hmin] at hcontra
      have h2 : ((List.foldl seedStep 0 p).natAbs : ℚ) * 2 = 2147483647 := by
        field_simp at hcontra
        linarith
    
      have h3 : ((List.foldl seedStep 0 p).natAbs * 2 : Nat) = 2147483647 := by
        exact_mod_cast h2
      omega

theorem logisticMap_bounds {x : ℚ} (h : 0 ≤ x ∧ x ≤ 1) :
    0 ≤ logisticMap x ∧ logisticMap x ≤ 399 / 400 := by
  obtain ⟨h0, h1⟩ := h
  unfold logisticMap
  constructor
  · have : 0 ≤ x * (1 - x) := mul_nonneg h0 (by linarith)
    nlinarith
  · nlinarith [sq_nonneg (x - 1 / 2)]

theorem tentMap_bounds {x : ℚ} (h : 0 ≤ x ∧ x ≤ 1) :
    0 ≤ tentMap x ∧ tentMap x ≤ 199 / 200 := by
  obtain ⟨h0, h1⟩ := h
  unfold tentMap
  split <;> constructor <;> linarith

theorem logisticMap_unit {x : ℚ} (h : 0 ≤ x ∧ x ≤ 1) :
    0 ≤ logisticMap x ∧ logisticMap x ≤ 1 := by
  have := logisticMap_bounds h
  constructor <;> linarith [this.1, this.2]

theorem tentMap_unit {x : ℚ} (h : 0 ≤ x ∧ x ≤ 1) :
    0 ≤ tentMap x ∧ tentMap x ≤ 1 := by
  have := tentMap_bounds h
  constructor <;> linarith [this.1, this.2]

theorem chaosStep_unit {p : ℚ × ℚ} (h1 : 0 ≤ p.1 ∧ p.1 ≤ 1)
    (h2 : 0 ≤ p.2 ∧ p.2 ≤ 1) :
    (0 ≤ (chaosStep p).1 ∧ (chaosStep p).1 ≤ 1) ∧
      (0 ≤ (chaosStep p).2 ∧ (chaosStep p).2 ≤ 1) :=
  ⟨logisticMap_unit h1, tentMap_unit h2⟩

theorem chaosStep_iterate_unit (k : Nat) (p : ℚ × ℚ) (h1 : 0 ≤ p.1 ∧ p.1 ≤ 1)
    (h2 : 0 ≤ p.2 ∧ p.2 ≤ 1) :
    (0 ≤ (chaosStep^[k] p).1 ∧ (chaosStep^[k] p).1 ≤ 1) ∧
      (0 ≤ (chaosStep^[k] p).2 ∧ (chaosStep^[k] p).2 ≤ 1) := by
  induction k generalizing p with
  | zero => exact ⟨h1, h2⟩
  | succ k ih =>
    rw [Function.iterate_succ_apply]
    obtain ⟨g1, g2⟩ := chaosStep_unit h1 h2
    exact ih _ g1 g2

/-- The combined emitted value lies in the half-open byte interval. -/
theorem chaosCombined_range {x y : ℚ} (hx : 0 ≤ x ∧ x ≤ 1)
    (hy : 0 ≤ y ∧ y ≤ 1) :
    0 ≤ (logisticMap x + tentMap y) / 2 * 256 ∧
      (logisticMap x + tentMap y) / 2 * 256 < 256 := by
  obtain ⟨l0, l1⟩ := logisticMap_bounds hx
  obtain ⟨t0, t1⟩ := tentMap_bounds hy
  constructor <;> nlinarith

theorem jsToInt32_of_range {q : ℚ} (h0 : 0 ≤ q) (h1 : q < 256) :
    jsToInt32 q = ⌊q⌋ := by
  unfold jsToInt32 ratTrunc
  rw [if_pos h0]
  have hf0 : (0 : Int) ≤ ⌊q⌋ := Int.floor_nonneg.mpr h0
  have hf1 : ⌊q⌋ < 256 := by
    rw [Int.floor_lt]
    exact_mod_cast h1
  unfold toSigned32
  split <;> omega

theorem floor_byte_range {q : ℚ} (h0 : 0 ≤ q) (h1 : q < 256) :
    0 ≤ ⌊q⌋ ∧ ⌊q⌋ ≤ 255 := by
  have hf0 : (0 : Int) ≤ ⌊q⌋ := Int.floor_nonneg.mpr h0
  have hf1 : ⌊q⌋ < 256 := by
    rw [Int.floor_lt]
    exact_mod_cast h1
  omega

theorem emitAux_length (n : Nat) : ∀ x y : ℚ, (emitAux x y n).length = n := by
  induction n with
  | zero => intro x y; rfl
  | succ n ih =>
    intro x y
    simp only [emitAux, List.length_cons, ih]

theorem emitAux_mem (n : Nat) : ∀ {x y : ℚ}, 0 ≤ x ∧ x ≤ 1 → 0 ≤ y ∧ y ≤ 1 →
    ∀ b ∈ emitAux x y n, 0 ≤ b ∧ b ≤ 255 := by
  induction n with
  | zero =>
    intro x y _ _ b hb
    simp [emitAux] at hb
  | succ n ih =>
    intro x y hx hy b hb
    simp only [emitAux, List.mem_cons] at hb
    rcases hb with rfl | hb
    · obtain ⟨c0, c1⟩ := chaosCombined_range hx hy
      rw [jsToInt32_of_range c0 c1]
      exact floor_byte_range c0 c1
    · exact ih (logisticMap_unit hx) (tentMap_unit hy) b hb

theorem entropyStream_length (seed : ℚ) (n : Nat) :
    (entropyStream seed n).length = n := by
  simp only [entropyStream]
  exact emitAux_length n _ _

theorem entropyStream_mem {seed : ℚ} (hseed : 0 ≤ seed ∧ seed ≤ 1) (n : Nat) :
    ∀ b ∈ entropyStream seed n, 0 ≤ b ∧ b ≤ 255 := by
  simp only [entropyStream]
  have hy := tentMap_unit hseed
  have hit := chaosStep_iterate_unit 100 (seed, tentMap seed) hseed hy
  exact emitAux_mem n hit.1 hit.2

theorem chaosByteSpec_of_range {q : ℚ} (h0 : 0 ≤ q) (h1 : q < 256) :
    chaosByteSpec q = ⌊q⌋ := by
  obtain ⟨f0, f1⟩ := floor_byte_range h0 h1
  unfold chaosByteSpec jsAnd32
  have hq : toUint32 ⌊q⌋ = ⌊q⌋.toNat := by
    unfold toUint32
    omega
  have h255 : toUint32 255 = 255 := by
    unfold toUint32
    omega
  rw [hq, h255]
  have hmask : ⌊q⌋.toNat &&& 255 = ⌊q⌋.toNat := by
    have : (255 : Nat) = 2 ^ 8 - 1 := by norm_num
    rw [this, Nat.and_pow_two_sub_one_eq_mod]
    omega
  rw [hmask]
  unfold toSigned32
  split <;> omega

theorem emitAux_eq_spec (n : Nat) : ∀ {x y : ℚ}, 0 ≤ x ∧ x ≤ 1 →
    0 ≤ y ∧ y ≤ 1 → emitAux x y n = emitAuxSpec x y n := by
  induction n with
  | zero => intro x y _ _; rfl
  | succ n ih =>
    intro x y hx hy
    obtain ⟨c0, c1⟩ := chaosCombined_range hx hy
    simp only [emitAux, emitAuxSpec]
    rw [jsToInt32_of_range c0 c1, chaosByteSpec_of_range c0 c1,
      ih (logisticMap_unit hx) (tentMap_unit hy)]

/-- The code's entropy stream coincides with the claim's description
whenever the seed lies in the unit interval. -/
theorem entropyStream_eq_spec {seed : ℚ} (hseed : 0 ≤ seed ∧ seed ≤ 1)
    (n : Nat) : entropyStream seed n = chaosStreamSpec seed n := by
  simp only [entropyStream, chaosStreamSpec]
  have hy := tentMap_unit hseed
  have hit := chaosStep_iterate_unit 100 (seed, tentMap seed) hseed hy
  exact emitAux_eq_spec n hit.1 hit.2

theorem digitChar_mem_hexDigits : ∀ m : Nat, m < 16 → Nat.digitChar m ∈ hexDigits := by
  decide

theorem natToHex_mem (n : Nat) : ∀ c ∈ natToHex n, c ∈ hexDigits := by
  induction n using Nat.strong_induction_on with
  | _ n ih =>
    rw [natToHex]
    split
    · next h =>
      intro c hc
      simp only [List.mem_singleton] at hc
      subst hc
      exact digitChar_mem_hexDigits n h
    · next h =>
      intro c hc
      rw [List.mem_append] at hc
      rcases hc with hc | hc
      · exact ih (n / 16) (Nat.div_lt_self (by omega) (by norm_num)) c hc
      · simp only [List.mem_singleton] at hc
        subst hc
        exact digitChar_mem_hexDigits (n % 16) (Nat.mod_lt _ (by norm_num))

theorem natToHex_length_le (n : Nat) (h : n < 256) : (natToHex n).length ≤ 2 := by
  rw [natToHex]
  split
  · simp
  · next hge =>
    rw [natToHex]
    rw [if_pos (by omega : n / 16 < 16)]
    simp

theorem padStart2_length {s : List Char} (h : s.length ≤ 2) :
    (padStart2 s).length = 2 := by
  unfold padStart2
  simp only [List.length_append, List.length_replicate]
  omega

theorem padStart2_mem {s : List Char} (hs : ∀ c ∈ s, c ∈ hexDigits) :
    ∀ c ∈ padStart2 s, c ∈ hexDigits := by
  intro c hc
  unfold padStart2 at hc
  rw [List.mem_append] at hc
  rcases hc with hc | hc
  · rw [List.mem_replicate] at hc
    rw [hc.2]
    decide
  · exact hs c hc

theorem encoded_byte_length {b : Int} (hb : 0 ≤ b ∧ b ≤ 255) :
    (padStart2 (jsNumToHex b)).length = 2 := by
  unfold jsNumToHex
  rw [if_neg (by omega)]
  exact padStart2_length (natToHex_length_le _ (by omega))

theorem encoded_byte_mem {b : Int} (hb : 0 ≤ b) :
    ∀ c ∈ padStart2 (jsNumToHex b), c ∈ hexDigits := by
  unfold jsNumToHex
  rw [if_neg (by omega)]
  exact padStart2_mem (natToHex_mem _)

theorem encoded_stream_length :
    ∀ l : List Int, (∀ b ∈ l, 0 ≤ b ∧ b ≤ 255) →
      ((l.map (fun b => padStart2 (jsNumToHex b))).map List.length).sum =
        2 * l.length := by
  intro l
  induction l with
  | nil => intro _; simp
  | cons b l ih =>
    intro h
    simp only [List.map_cons, List.sum_cons, List.length_cons]
    rw [encoded_byte_length (h b (by simp)), ih (fun c hc => h c (by simp [hc]))]
    ring

theorem generateEntropySeed_unit (p : List Nat) :
    0 ≤ generateEntropySeed p ∧ generateEntropySeed p ≤ 1 := by
  have h1 := generateEntropySeed_ge p
  have h2 := generateEntropySeed_le p
  constructor <;> linarith

/-- The fingerprint always consists of exactly 64 characters. -/
theorem generateEntropyFingerprint_length (p : List Nat) :
    (generateEntropyFingerprint p).length = 64 := by
  unfold generateEntropyFingerprint
  rw [List.length_flatten]
  rw [encoded_stream_length _ (entropyStream_mem (generateEntropySeed_unit p) 32)]
  rw [entropyStream_length]

/-- Every fingerprint character is a lowercase hexadecimal digit. -/
theorem generateEntropyFingerprint_mem (p : List Nat) :
    ∀ c ∈ generateEntropyFingerprint p, c ∈ hexDigits := by
  intro c hc
  unfold generateEntropyFingerprint at hc
  rw [List.mem_flatten] at hc
  obtain ⟨t, ht, hct⟩ := hc
  rw [List.mem_map] at ht
  obtain ⟨b, hb, rfl⟩ := ht
  have hbr := entropyStream_mem (generateEntropySeed_unit p) 32 b hb
  exact encoded_byte_mem hbr.1 c hct

theorem lor_two_pow_mul_add {k b : Nat} (a : Nat) (hb : b < 2 ^ k) :
    (2 ^ k * a) ||| b = 2 ^ k * a + b := by
  apply Nat.eq_of_testBit_eq
  intro i
  rw [Nat.testBit_lor, Nat.testBit_mul_pow_two_add a hb i, Nat.testBit_mul_pow_two]
  by_cases hik : i < k
  · have : ¬i ≥ k := by omega
    simp [this, hik]
  · have hge : i ≥ k := by omega
    have hbf : b.testBit i = false :=
      Nat.testBit_lt_two_pow
        (lt_of_lt_of_le hb (Nat.pow_le_pow_right (by norm_num) hge))
    simp [hge, hik, hbf]

theorem encodeLen_eq (n : Nat) :
    encodeLen n = [n % 2 ^ 32 / 2 ^ 24, n % 2 ^ 32 / 2 ^ 16 % 256,
      n % 2 ^ 32 / 2 ^ 8 % 256, n % 2 ^ 32 % 256] := by
  have h255 : (255 : Nat) = 2 ^ 8 - 1 := by norm_num
  simp only [encodeLen, Nat.shiftRight_eq_div_pow, h255,
    Nat.and_pow_two_sub_one_eq_mod]
  norm_num
  omega

theorem encodeLen_length (n : Nat) : (encodeLen n).length = 4 := by
  simp [encodeLen]

theorem decodeLen_encodeLen (n : Nat) (rest : List Nat) :
    decodeLen (encodeLen n ++ rest) 0 = toSigned32 (n : Int) := by
  rw [encodeLen_eq]
  set u := n % 2 ^ 32 with hu
  have hu32 : u < 2 ^ 32 := by omega
  set e0 := u / 2 ^ 24 with he0def
  set e1 := u / 2 ^ 16 % 256 with he1def
  set e2 := u / 2 ^ 8 % 256 with he2def
  set e3 := u % 256 with he3def
  have he0 : e0 < 256 := by omega
  have he1 : e1 < 256 := by omega
  have he2 : e2 < 256 := by omega
  have he3 : e3 < 256 := by omega
  simp only [decodeLen, List.cons_append, List.nil_append, List.getD_cons_zero,
    List.getD_cons_succ]
  have s0 : jsShl32 (e0 : Int) 24 = toSigned32 ((e0 * 2 ^ 24 : Nat) : Int) := by
    unfold jsShl32
    rw [toUint32_natCast _ (by omega), Nat.shiftLeft_eq]
  have s1 : jsShl32 (e1 : Int) 16 = toSigned32 ((e1 * 2 ^ 16 : Nat) : Int) := by
    unfold jsShl32
    rw [toUint32_natCast _ (by omega), Nat.shiftLeft_eq]
  have s2 : jsShl32 (e2 : Int) 8 = toSigned32 ((e2 * 2 ^ 8 : Nat) : Int) := by
    unfold jsShl32
    rw [toUint32_natCast _ (by omega), Nat.shiftLeft_eq]
  have o1 : jsOr32 (jsShl32 (e0 : Int) 24) (jsShl32 (e1 : Int) 16) =
      toSigned32 ((2 ^ 24 * e0 + e1 * 2 ^ 16 : Nat) : Int) := by
    unfold jsOr32
    rw [s0, s1, toUint32_toSigned32, toUint32_toSigned32,
      toUint32_natCast _ (by omega), toUint32_natCast _ (by omega)]
    rw [Nat.mul_comm e0 (2 ^ 24), lor_two_pow_mul_add e0 (by omega)]
  have o2 : jsOr32 (jsOr32 (jsShl32 (e0 : Int) 24) (jsShl32 (e1 : Int) 16))
      (jsShl32 (e2 : Int) 8) =
      toSigned32 ((2 ^ 16 * (2 ^ 8 * e0 + e1) + e2 * 2 ^ 8 : Nat) : Int) := by
    rw [o1, s2]
    unfold jsOr32
    rw [toUint32_toSigned32, toUint32_toSigned32,
      toUint32_natCast _ (by omega), toUint32_natCast _ (by omega)]
    rw [show 2 ^ 24 * e0 + e1 * 2 ^ 16 = 2 ^ 16 * (2 ^ 8 * e0 + e1) by ring]
    rw [lor_two_pow_mul_add _ (by omega)]
  have o3 : jsOr32 (jsOr32 (jsOr32 (jsShl32 (e0 : Int) 24) (jsShl32 (e1 : Int) 16))
      (jsShl32 (e2 : Int) 8)) (e3 : Int) =
      toSigned32 ((2 ^ 8 * (2 ^ 16 * e0 + 2 ^ 8 * e1 + e2) + e3 : Nat) : Int) := by
    rw [o2]
    unfold jsOr32
    rw [toUint32_toSigned32, toUint32_natCast _ (by omega),
      toUint32_natCast _ (by omega)]
    rw [show 2 ^ 16 * (2 ^ 8 * e0 + e1) + e2 * 2 ^ 8 =
      2 ^ 8 * (2 ^ 16 * e0 + 2 ^ 8 * e1 + e2) by ring]
    rw [lor_two_pow_mul_add _ (by omega)]
  rw [o3]
  have htot : 2 ^ 8 * (2 ^ 16 * e0 + 2 ^ 8 * e1 + e2) + e3 = u := by omega
  rw [htot]
  unfold toSigned32
  split <;> split <;> omega

theorem decodeLen_append_four (pre : List Nat) (h : pre.length = 4)
    (l : List Nat) : decodeLen (pre ++ l) 4 = decodeLen l 0 := by
  have g : ∀ j : Nat, 4 ≤ j → (pre ++ l).getD j 0 = l.getD (j - 4) 0 := by
    intro j hj
    rw [List.getD_append_right _ _ _ _ (by omega), h]
  simp only [decodeLen]
  rw [g 4 (by norm_num), g (4 + 1) (by norm_num), g (4 + 2) (by norm_num),
    g (4 + 3) (by norm_num)]

theorem toUint32_int_toNat {k : Int} (hk0 : 0 ≤ k) (hk1 : k < 2 ^ 32) :
    toUint32 k = k.toNat := by
  unfold toUint32
  omega

theorem jsToUint8_natCast {m : Nat} (h : m < 256) :
    jsToUint8 ((m : Nat) : Int) = m := by
  unfold jsToUint8
  omega

theorem xor_byte_bound {c : Nat} {k : Int} (hc : c < 256) (hk0 : 0 ≤ k)
    (hk1 : k ≤ 255) :
    jsXor32 (c : Int) k = ((c ^^^ k.toNat : Nat) : Int) ∧ c ^^^ k.toNat < 256 := by
  have hx : c ^^^ k.toNat < 256 := by
    have h2 : c < 2 ^ 8 := by omega
    have h3 : k.toNat < 2 ^ 8 := by omega
    have := Nat.xor_lt_two_pow h2 h3
    omega
  refine ⟨?_, hx⟩
  unfold jsXor32
  rw [toUint32_natCast _ (by omega), toUint32_int_toNat hk0 (by omega)]
  unfold toSigned32
  split <;> omega

theorem cipher_byte_cancel {c : Nat} {k : Int} (hc : c < 256) (hk0 : 0 ≤ k)
    (hk1 : k ≤ 255) :
    jsToUint8 (jsXor32 ((jsToUint8 (jsXor32 (c : Int) k) : Nat) : Int) k) = c := by
  obtain ⟨hx, hlt⟩ := xor_byte_bound hc hk0 hk1
  rw [hx, jsToUint8_natCast hlt]
  obtain ⟨hx2, _⟩ := xor_byte_bound hlt hk0 hk1
  rw [hx2, Nat.xor_assoc, Nat.xor_self, Nat.xor_zero, jsToUint8_natCast hc]

/-- XOR recovery: decrypting the ciphertext region of a container with the
same keystream restores the compressed bytes. -/
theorem decrypt_recovers (pre comp : List Nat) (ks : List Int)
    (hpre : pre.length = 8) (hlen : ks.length = comp.length)
    (hcomp : ∀ b ∈ comp, b < 256) (hks : ∀ k ∈ ks, 0 ≤ k ∧ k ≤ 255) :
    List.zipWith
      (fun (i : Nat) (k : Int) => jsToUint8 (jsXor32
        (((pre ++ List.zipWith (fun (c : Nat) (k : Int) => jsToUint8 (jsXor32 (c : Int) k)) comp ks).getD
          (i + 8) 0 : Nat) : Int) k))
      (List.range comp.length) ks = comp := by
  have hctlen : (List.zipWith
      (fun (c : Nat) (k : Int) => jsToUint8 (jsXor32 (c : Int) k)) comp ks).length = comp.length := by
    rw [List.length_zipWith, hlen, Nat.min_self]
  apply List.ext_getElem
  · rw [List.length_zipWith, List.length_range, hlen, Nat.min_self]
  · intro i hi1 hi2
    have hi : i < comp.length := hi2
    have hiks : i < ks.length := by omega
    rw [List.getElem_zipWith, List.getElem_range]
    have hgd : (pre ++ List.zipWith
        (fun (c : Nat) (k : Int) => jsToUint8 (jsXor32 (c : Int) k)) comp ks).getD (i + 8) 0 =
        (List.zipWith (fun (c : Nat) (k : Int) => jsToUint8 (jsXor32 (c : Int) k)) comp ks).getD i 0 := by
      rw [List.getD_append_right _ _ _ _ (by omega)]
      congr 1
      omega
    rw [hgd, List.getD_eq_getElem _ _ (by omega), List.getElem_zipWith]
    exact cipher_byte_cancel (hcomp _ (List.getElem_mem hi))
      (hks _ (List.getElem_mem hiks)).1 (hks _ (List.getElem_mem hiks)).2

theorem toSigned32_ofNat_small (n : Nat) (h : n < 2 ^ 31) :
    toSigned32 (n : Int) = (n : Int) := by
  unfold toSigned32
  omega

/-- Decrypting the container that encryption builds, with the matching
fingerprint and digest, succeeds and returns the original data, provided
both length words fit the signed 32-bit decode. -/
theorem decrypt_container (p data : List Nat)
    (hbytes : ∀ b ∈ data, b < 256)
    (hdl : data.length < 2 ^ 31)
    (hcl : (quantumCompress data).length < 2 ^ 31) :
    quantumDecrypt
      (encodeLen data.length ++ encodeLen (quantumCompress data).length ++
        List.zipWith (fun (c : Nat) (k : Int) => jsToUint8 (jsXor32 (c : Int) k))
          (quantumCompress data)
          (entropyStream (generateEntropySeed p) (quantumCompress data).length))
      p (generateEntropyFingerprint p)
      (quantumHash
        (encodeLen data.length ++ encodeLen (quantumCompress data).length ++
          List.zipWith (fun (c : Nat) (k : Int) => jsToUint8 (jsXor32 (c : Int) k))
            (quantumCompress data)
            (entropyStream (generateEntropySeed p) (quantumCompress data).length))
        p) = some data := by
  simp only [quantumDecrypt, if_true]
  rw [List.append_assoc]
  rw [decodeLen_encodeLen]
  rw [decodeLen_append_four _ (encodeLen_length _) _, decodeLen_encodeLen]
  rw [toSigned32_ofNat_small _ hdl, toSigned32_ofNat_small _ hcl]
  rw [if_neg (by omega : ¬((quantumCompress data).length : Int) < 0)]
  rw [Int.toNat_natCast]
  rw [← List.append_assoc]
  rw [decrypt_recovers _ _ _
    (by simp [encodeLen_length])
    (by rw [entropyStream_length])
    (compress_bytes_aux data.length data (le_refl _) hbytes)
    (entropyStream_mem (generateEntropySeed_unit p) _)]
  rw [roundtrip_aux data.length data (le_refl _)]
  rw [if_pos rfl]

theorem quantumEncrypt_encrypted (data p : List Nat) (flag : Bool) :
    (quantumEncrypt data p flag).encrypted =
      encodeLen data.length ++ encodeLen (quantumCompress data).length ++
        List.zipWith (fun (c : Nat) (k : Int) => jsToUint8 (jsXor32 (c : Int) k))
          (quantumCompress data)
          (entropyStream (generateEntropySeed p) (quantumCompress data).length) := rfl

theorem quantumEncrypt_fingerprint (data p : List Nat) (flag : Bool) :
    (quantumEncrypt data p flag).fingerprint = generateEntropyFingerprint p := rfl

theorem quantumEncrypt_hash (data p : List Nat) (flag : Bool) :
    (quantumEncrypt data p flag).hash =
      quantumHash
        (encodeLen data.length ++ encodeLen (quantumCompress data).length ++
          List.zipWith (fun (c : Nat) (k : Int) => jsToUint8 (jsXor32 (c : Int) k))
            (quantumCompress data)
            (entropyStream (generateEntropySeed p) (quantumCompress data).length))
        p := by
  simp only [quantumEncrypt]

theorem toSigned32_ofNat_big (n : Nat) (h1 : 2 ^ 31 ≤ n) (h2 : n < 2 ^ 32) :
    toSigned32 (n : Int) = (n : Int) - 2 ^ 32 := by
  unfold toSigned32
  omega

/-- When the payload length needs the sign bit of the header word, the
signed decode disagrees with the stored length and decryption rejects its
own container. -/
theorem decrypt_container_big (p data : List Nat)
    (hbytes : ∀ b ∈ data, b < 256)
    (hdl : 2 ^ 31 ≤ data.length) (hdl2 : data.length < 2 ^ 32)
    (hcl : (quantumCompress data).length < 2 ^ 31) :
    quantumDecrypt
      (encodeLen data.length ++ encodeLen (quantumCompress data).length ++
        List.zipWith (fun (c : Nat) (k : Int) => jsToUint8 (jsXor32 (c : Int) k))
          (quantumCompress data)
          (entropyStream (generateEntropySeed p) (quantumCompress data).length))
      p (generateEntropyFingerprint p)
      (quantumHash
        (encodeLen data.length ++ encodeLen (quantumCompress data).length ++
          List.zipWith (fun (c : Nat) (k : Int) => jsToUint8 (jsXor32 (c : Int) k))
            (quantumCompress data)
            (entropyStream (generateEntropySeed p) (quantumCompress data).length))
        p) = none := by
  simp only [quantumDecrypt, if_true]
  rw [List.append_assoc]
  rw [decodeLen_encodeLen]
  rw [decodeLen_append_four _ (encodeLen_length _) _, decodeLen_encodeLen]
  rw [toSigned32_ofNat_big _ hdl hdl2, toSigned32_ofNat_small _ hcl]
  rw [if_neg (by omega : ¬((quantumCompress data).length : Int) < 0)]
  rw [Int.toNat_natCast]
  rw [← List.append_assoc]
  rw [decrypt_recovers _ _ _
    (by simp [encodeLen_length])
    (by rw [entropyStream_length])
    (compress_bytes_aux data.length data (le_refl _) hbytes)
    (entropyStream_mem (generateEntropySeed_unit p) _)]
  rw [roundtrip_aux data.length data (le_refl _)]
  rw [if_neg (by omega : ¬(data.length : Int) = (data.length : Int) - 2 ^ 32)]

theorem emitAux_zero (x y : ℚ) : emitAux x y 0 = [] := rfl

/-- Decrypting the empty container with the matching fingerprint and digest
succeeds and returns the empty payload: the missing header bytes read as
zero, so both length words decode to zero. -/
theorem decrypt_empty (p : List Nat) :
    quantumDecrypt [] p (generateEntropyFingerprint p) (quantumHash [] p) =
      some [] := by
  have hz0 : decodeLen [] 0 = 0 := by decide
  have hz4 : decodeLen [] 4 = 0 := by decide
  simp only [quantumDecrypt, if_true, hz0, hz4]
  rw [if_neg (by omega : ¬(0 : Int) < 0)]
  simp only [Int.toNat_zero, List.range_zero, List.zipWith_nil_left]
  rw [show quantumDecompress [] = [] from rfl]
  simp

theorem decrypt_wrong_fp (container : List Nat) (p : List Nat)
    (fp d : List Char) (h : generateEntropyFingerprint p ≠ fp) :
    quantumDecrypt container p fp d = none := by
  simp only [quantumDecrypt, if_neg h]

theorem compress_replicate_pow31_lt :
    (quantumCompress (List.replicate (2 ^ 31) 0)).length < 2 ^ 31 := by
  have h := compress_replicate_zero_len (2 ^ 31) (2 ^ 31) (le_refl _)
  omega

/-- Claim C1, counterexample: a payload of two to the thirty-one zero bytes
has length below two to the thirty-two, yet decrypting its own container
with the matching password, fingerprint and digest returns none, because
the header decode is signed and reads the stored original length as a
negative number. -/
theorem C1_counterexample :
    (List.replicate (2 ^ 31) (0 : Nat)).length < 2 ^ 32 ∧
      quantumDecrypt (quantumEncrypt (List.replicate (2 ^ 31) 0) [] false).encrypted
        [] (quantumEncrypt (List.replicate (2 ^ 31) 0) [] false).fingerprint
        (quantumEncrypt (List.replicate (2 ^ 31) 0) [] false).hash = none := by
  constructor
  · rw [List.length_replicate]
    norm_num
  · rw [quantumEncrypt_encrypted, quantumEncrypt_fingerprint, quantumEncrypt_hash]
    exact decrypt_container_big [] _
      (fun b hb => by rw [List.eq_of_mem_replicate hb]; norm_num)
      (by rw [List.length_replicate]) (by rw [List.length_replicate]; norm_num)
      compress_replicate_pow31_lt

/-- Claim C1, amended: for every payload of bytes whose length is below two
to the thirty-one and whose compressed form is also shorter than two to the
thirty-one, decrypting the container produced by encryption with the same
password and the returned fingerprint and digest succeeds and returns
exactly the payload, for any setting of the progress callback. -/
theorem C1_roundtrip (data p : List Nat) (flag : Bool)
    (hbytes : ∀ b ∈ data, b < 256)
    (hdl : data.length < 2 ^ 31)
    (hcl : (quantumCompress data).length < 2 ^ 31) :
    quantumDecrypt (quantumEncrypt data p flag).encrypted p
      (quantumEncrypt data p flag).fingerprint
      (quantumEncrypt data p flag).hash = some data := by
  rw [quantumEncrypt_encrypted, quantumEncrypt_fingerprint, quantumEncrypt_hash]
  exact decrypt_container p data hbytes hdl hcl

/-- Witness for the amended claim C1 at a concrete payload and password. -/
theorem C1_roundtrip_witness :
    (∀ b ∈ [7, 7, 7, 7, 250], b < 256) ∧ ([7, 7, 7, 7, 250] : List Nat).length < 2 ^ 31 ∧
      (quantumCompress [7, 7, 7, 7, 250]).length < 2 ^ 31 ∧
      quantumDecrypt (quantumEncrypt [7, 7, 7, 7, 250] [97] true).encrypted [97]
        (quantumEncrypt [7, 7, 7, 7, 250] [97] true).fingerprint
        (quantumEncrypt [7, 7, 7, 7, 250] [97] true).hash = some [7, 7, 7, 7, 250] := by
  have hb : ∀ b ∈ [7, 7, 7, 7, 250], b < 256 := by decide
  have hd : ([7, 7, 7, 7, 250] : List Nat).length < 2 ^ 31 := by norm_num
  have hc : (quantumCompress [7, 7, 7, 7, 250]).length < 2 ^ 31 := by
    have := compress_length_aux 5 [7, 7, 7, 7, 250] (by norm_num)
    simp only [List.length_cons, List.length_nil] at this
    omega
  exact ⟨hb, hd, hc, C1_roundtrip [7, 7, 7, 7, 250] [97] true hb hd hc⟩

/-- Claim C2: decompression inverts compression on every byte sequence,
in particular on the empty sequence, on sequences containing the marker
byte 0xFE, and on runs longer than 255. -/
theorem C2_compress_roundtrip (l : List Nat) :
    quantumDecompress (quantumCompress l) = l :=
  roundtrip_aux l.length l (le_refl _)

/-- Claim C3, counterexample: the empty password hashes to zero, and the
clamp returns its lower bound exactly, so the seed equals 0.0001 and is not
strictly inside the open interval. -/
theorem C3_counterexample :
    generateEntropySeed [] = 1 / 10000 ∧ ¬1 / 10000 < generateEntropySeed [] := by
  have h : generateEntropySeed [] = 1 / 10000 := by
    simp only [generateEntropySeed, List.foldl_nil]
    norm_num
  exact ⟨h, by rw [h]; norm_num⟩

/-- Claim C3, amended: for every password the seed lies in the closed
interval from 0.0001 to 0.9999, and never equals 0, one half, or 1. -/
theorem C3_seed_range (p : List Nat) :
    1 / 10000 ≤ generateEntropySeed p ∧ generateEntropySeed p ≤ 9999 / 10000 ∧
      generateEntropySeed p ≠ 0 ∧ generateEntropySeed p ≠ 1 / 2 ∧
      generateEntropySeed p ≠ 1 := by
  have h1 := generateEntropySeed_ge p
  have h2 := generateEntropySeed_le p
  refine ⟨h1, h2, ?_, generateEntropySeed_ne_half p, ?_⟩
  · intro h
    rw [h] at h1
    norm_num at h1
  · intro h
    rw [h] at h2
    norm_num at h2

/-- Claim C4, counterexample: the empty container is shorter than eight
bytes, yet decryption with the matching password, fingerprint and digest
does not fail with any malformed-container error; it succeeds and returns
the empty plaintext. -/
theorem C4_counterexample :
    ([] : List Nat).length < 8 ∧
      quantumDecrypt [] [] (generateEntropyFingerprint [])
        (quantumHash [] []) = some [] :=
  ⟨by norm_num, decrypt_empty []⟩

/-- Claim C4, amended: decryption has no container-length check and no
distinct error kinds; missing header bytes of a short container read as
zero, every failure is signalled by the single value none, and for every
password the empty container with matching fingerprint and digest decrypts
successfully to the empty payload. -/
theorem C4_short_container (p : List Nat) :
    quantumDecrypt [] p (generateEntropyFingerprint p) (quantumHash [] p) =
      some [] :=
  decrypt_empty p

/-- Claim C5: when the fingerprint of the password differs from the
expected fingerprint, decryption fails, and the result is the same
failure value regardless of the container bytes and the expected digest. -/
theorem C5_wrong_password (container container' : List Nat) (p : List Nat)
    (expFp : List Char) (d d' : List Char)
    (h : generateEntropyFingerprint p ≠ expFp) :
    quantumDecrypt container p expFp d = none ∧
      quantumDecrypt container p expFp d =
        quantumDecrypt container' p expFp d' := by
  rw [decrypt_wrong_fp container p expFp d h,
    decrypt_wrong_fp container' p expFp d' h]
  exact ⟨rfl, rfl⟩

/-- Witness for claim C5: the empty expected fingerprint can never match
because real fingerprints have 64 characters. -/
theorem C5_wrong_password_witness :
    generateEntropyFingerprint [] ≠ [] ∧
      (quantumDecrypt [1, 2] [] [] ['a'] = none ∧
        quantumDecrypt [1, 2] [] [] ['a'] = quantumDecrypt [3] [] [] ['b']) := by
  have hne : generateEntropyFingerprint [] ≠ [] := by
    intro h
    have := generateEntropyFingerprint_length []
    rw [h] at this
    simp at this
  exact ⟨hne, C5_wrong_password [1, 2] [3] [] [] ['a'] ['b'] hne⟩

/-- Claim C6: for every seed in the closed interval from 0.0001 to 0.9999
and every count, the stream emits exactly that many values and coincides
with the claim's description: one hundred burn-in updates of both maps from
x equal to the seed and y equal to the tent map of the seed, then per step
an update of both maps and the emission of the floored, 0xFF-masked
combination. -/
theorem C6_stream_spec (seed : ℚ) (n : Nat) (h1 : 1 / 10000 ≤ seed)
    (h2 : seed ≤ 9999 / 10000) :
    (entropyStream seed n).length = n ∧
      entropyStream seed n = chaosStreamSpec seed n := by
  have hu : 0 ≤ seed ∧ seed ≤ 1 := by constructor <;> linarith
  exact ⟨entropyStream_length seed n, entropyStream_eq_spec hu n⟩

/-- Witness for claim C6 at seed one half and count three. -/
theorem C6_stream_spec_witness :
    (1 / 10000 ≤ (1 / 2 : ℚ) ∧ (1 / 2 : ℚ) ≤ 9999 / 10000) ∧
      (entropyStream (1 / 2) 3).length = 3 ∧
        entropyStream (1 / 2) 3 = chaosStreamSpec (1 / 2) 3 :=
  ⟨⟨by norm_num, by norm_num⟩, C6_stream_spec (1 / 2) 3 (by norm_num) (by norm_num)⟩

set_option maxRecDepth 8000 in
/-- Claim C7, counterexample: on the password of seven characters with code
97 the code's zero-filling unsigned shift and the claimed sign-extending
arithmetic shift produce different seeds. -/
theorem C7_counterexample :
    generateEntropySeed [97, 97, 97, 97, 97, 97, 97] ≠
      generateEntropySeedArith [97, 97, 97, 97, 97, 97, 97] := by
  have h1 : List.foldl seedStep 0 [97, 97, 97, 97, 97, 97, 97] = -1236509653 := by
    decide
  have h2 : List.foldl seedStepArith 0 [97, 97, 97, 97, 97, 97, 97] = 1237427110 := by
    decide
  simp only [generateEntropySeed, generateEntropySeedArith, h1, h2]
  rw [show ((-1236509653 : Int).natAbs : ℚ) = 1236509653 by norm_num,
    show (((1237427110 : Int).natAbs : ℚ)) = 1237427110 by norm_num]
  rw [min_eq_right (by norm_num), max_eq_right (by norm_num),
    min_eq_right (by norm_num), max_eq_right (by norm_num)]
  norm_num

/-- Claim C7, amended: the seed derivation performs the rolling hash with
wrap-around 32-bit arithmetic exactly as claimed, but the per-character
shift is the zero-filling unsigned right shift by sixteen, not the
sign-extending arithmetic one; the result is clamped as claimed. -/
theorem C7_seed_formula (p : List Nat) :
    generateEntropySeed p = generateEntropySeedSpec p :=
  generateEntropySeed_eq_spec p

/-- Claim C8: every fingerprint is a string of exactly 64 characters, each
a lowercase hexadecimal digit, and every underlying stream byte lies
between 0 and 255, so each byte encodes as exactly two characters. -/
theorem C8_fingerprint_hex (p : List Nat) :
    (generateEntropyFingerprint p).length = 64 ∧
      (∀ c ∈ generateEntropyFingerprint p, c ∈ hexDigits) ∧
      ∀ b ∈ entropyStream (generateEntropySeed p) 32, 0 ≤ b ∧ b ≤ 255 :=
  ⟨generateEntropyFingerprint_length p, generateEntropyFingerprint_mem p,
    entropyStream_mem (generateEntropySeed_unit p) 32⟩

/-- Claim C9: compression never more than triples the length of its input. -/
theorem C9_compress_bound (l : List Nat) :
    (quantumCompress l).length ≤ 3 * l.length :=
  compress_length_aux l.length l (le_refl _)

/-- Claim C10: the container bytes, the fingerprint and the digest returned
by encryption are identical for any two settings of the progress callback;
the callback never influences the result. -/
theorem C10_callback_independent (data p : List Nat) (b b' : Bool) :
    (quantumEncrypt data p b).encrypted = (quantumEncrypt data p b').encrypted ∧
      (quantumEncrypt data p b).fingerprint = (quantumEncrypt data p b').fingerprint ∧
      (quantumEncrypt data p b).hash = (quantumEncrypt data p b').hash := by
  rw [quantumEncrypt_encrypted, quantumEncrypt_encrypted,
    quantumEncrypt_fingerprint, quantumEncrypt_fingerprint,
    quantumEncrypt_hash, quantumEncrypt_hash]
  exact ⟨rfl, ⟨rfl, rfl⟩⟩

end QTDFP
